import Mathlib

/-!
Verification of the heading-extraction and slug-generation utilities of a
personal blog site.

The embedded code:
* `slugify` (`src/components/MDXHeading.tsx` and the table-of-contents
  helper module): `text.toLowerCase().trim().replace(/[^\w\s-]/g, "")
  .replace(/[\s_-]+/g, "-").replace(/^-+|-+$/g, "")`.
* `extractHeadings`: scans `content.matchAll(/^(#{2,6})\s+(.+)$/gm)` and
  builds `{id, text, level}` records.
* `extractText` (`MDXHeading.tsx`): recursively flattens a rendered
  content tree to a plain string.
* The table-of-contents tracker (`TableOfContents`): the intersection
  callback updating `activeId`, the active marking, and the per-level
  indentation classes.

Strings are modelled as `List Char` (`String.data`); JavaScript character
classes are modelled on code points (`Char.toNat`).  `toLowerCase` is
modelled per character on the ASCII range (non-ASCII case mappings are
outside the character set the surrounding regexes keep).  JavaScript
numbers appearing as content leaves are modelled as integers.
-/

/-- Code points of the JavaScript whitespace class `\s` (also the set
removed by `String.prototype.trim`): ASCII whitespace, NBSP, the Unicode
space separators, the line separators and the BOM. -/
def spaceCode (n : Nat) : Bool :=
  decide (n = 9 ∨ n = 10 ∨ n = 11 ∨ n = 12 ∨ n = 13 ∨ n = 32 ∨
    n = 0xA0 ∨ n = 0x1680 ∨ (0x2000 ≤ n ∧ n ≤ 0x200A) ∨
    n = 0x2028 ∨ n = 0x2029 ∨ n = 0x202F ∨ n = 0x205F ∨
    n = 0x3000 ∨ n = 0xFEFF)

/-- The JavaScript whitespace class `\s` on characters. -/
def jsSpace (c : Char) : Bool := spaceCode c.toNat

/-- The regex class `\w`: ASCII letters, ASCII digits and underscore. -/
def wordChar (c : Char) : Bool :=
  decide ((97 ≤ c.toNat ∧ c.toNat ≤ 122) ∨ (65 ≤ c.toNat ∧ c.toNat ≤ 90) ∨
    (48 ≤ c.toNat ∧ c.toNat ≤ 57) ∨ c.toNat = 95)

/-- Characters kept by the first `replace` of `slugify`
(the complement of `[^\w\s-]`): word characters, whitespace, hyphen. -/
def keepChar (c : Char) : Bool := wordChar c || jsSpace c || decide (c.toNat = 45)

/-- The regex class `[\s_-]` collapsed by the second `replace` of
`slugify`: whitespace, underscore, hyphen. -/
def runChar (c : Char) : Bool := jsSpace c || decide (c.toNat = 95 ∨ c.toNat = 45)

/-- Per-character model of `String.prototype.toLowerCase` on the ASCII
range: uppercase ASCII letters are shifted to lowercase, everything else
is unchanged. -/
def jsLower (c : Char) : Char :=
  if 65 ≤ c.toNat ∧ c.toNat ≤ 90 then Char.ofNat (c.toNat + 32) else c

/-- Drop a maximal trailing run of characters satisfying `p` (the
right-hand half of `trim`, and of the `/^-+|-+$/` replacement). -/
def dropTrailingWhile (p : Char → Bool) : List Char → List Char
  | [] => []
  | c :: rest =>
    let r := dropTrailingWhile p rest
    if r.isEmpty && p c then [] else c :: r

/-- `String.prototype.trim`: drop leading and trailing whitespace. -/
def jsTrim (l : List Char) : List Char :=
  dropTrailingWhile jsSpace (l.dropWhile jsSpace)

/-- The sequential-state model of `.replace(/[\s_-]+/g, "-")`: scan left
to right, emitting `-` at the first character of each run of characters
satisfying `p` and dropping the rest of the run.  The flag records
whether the scanner is inside a run. -/
def squashRuns (p : Char → Bool) : List Char → Bool → List Char
  | [], _ => []
  | c :: rest, inRun =>
    if p c then
      if inRun then squashRuns p rest true else '-' :: squashRuns p rest true
    else c :: squashRuns p rest false

/-- `.replace(/^-+|-+$/g, "")`: strip leading and trailing hyphens. -/
def dropEdgeHyphens (l : List Char) : List Char :=
  dropTrailingWhile (fun c => decide (c.toNat = 45)) (l.dropWhile (fun c => decide (c.toNat = 45)))

/-- The `slugify` chain of `MDXHeading.tsx` on character lists:
lowercase, trim, remove `[^\w\s-]`, replace `[\s_-]+` runs by `-`,
strip edge hyphens. -/
def slugifyL (l : List Char) : List Char :=
  dropEdgeHyphens (squashRuns runChar ((jsTrim (l.map jsLower)).filter keepChar) false)

/-- The source function `slugify : string -> string`. -/
def slugify (s : String) : String := String.mk (slugifyL s.data)

mutual

/-- Run collapsing written the way the specification describes step 4:
the first character of each run of characters of the class becomes one
hyphen and the rest of the run is skipped. -/
def collapseSpec (p : Char → Bool) : List Char → List Char
  | [] => []
  | c :: rest =>
    if p c then '-' :: skipRun p rest
    else c :: collapseSpec p rest

/-- Skip the remainder of the current run, then resume collapsing. -/
def skipRun (p : Char → Bool) : List Char → List Char
  | [] => []
  | c :: rest =>
    if p c then skipRun p rest
    else c :: collapseSpec p rest

end

/-- The character class of the specification's step 4 as written:
whitespace and hyphens only. -/
def specRun (c : Char) : Bool := jsSpace c || decide (c.toNat = 45)

/-- The five-step algorithm exactly as the specification words it:
lowercase; trim; remove every character that is not a word character,
whitespace or hyphen; collapse every run of whitespace and/or hyphens
(and only those) into a single hyphen; strip leading/trailing hyphens. -/
def slugifySpec (s : String) : String :=
  String.mk (dropEdgeHyphens (collapseSpec specRun ((jsTrim (s.data.map jsLower)).filter keepChar)))

/-- The amended character class for step 4: whitespace, underscores
and/or hyphens, matching the `[\s_-]+` class the code collapses. -/
def specRunAmended (c : Char) : Bool := jsSpace c || decide (c.toNat = 95 ∨ c.toNat = 45)

/-- The five-step algorithm with step 4 amended to also collapse
underscores into the runs. -/
def slugifySpecAmended (s : String) : String :=
  String.mk (dropEdgeHyphens (collapseSpec specRunAmended ((jsTrim (s.data.map jsLower)).filter keepChar)))


/-- A heading record `{id, text, level}` of the table-of-contents module. -/
structure Heading where
  id : String
  text : String
  level : Nat
deriving DecidableEq, Repr

/-- JavaScript line terminators (the characters `^`, `$` and `.` of a
multiline regex care about): LF, CR, LS, PS. -/
def lineTerm (c : Char) : Bool :=
  decide (c.toNat = 10 ∨ c.toNat = 13 ∨ c.toNat = 0x2028 ∨ c.toNat = 0x2029)

/-- Length of the maximal run of characters satisfying `p` starting at
index `i`. -/
def runLen (p : Char → Bool) (s : List Char) (i : Nat) : Nat :=
  ((s.drop i).takeWhile p).length

/-- The multiline anchor `^`: start of input or preceded by a line
terminator. -/
def lineStart (s : List Char) (i : Nat) : Bool :=
  i == 0 || (s.get? (i - 1)).elim false lineTerm

/-- There is a character at index `i` and it is not a line terminator
(the condition for `.` to match there). -/
def dotAt (s : List Char) (i : Nat) : Bool :=
  (s.get? i).elim false (fun c => !lineTerm c)

/-- One match of `/^(#{2,6})\s+(.+)$/` in a multiline scan: its start
index, the captured `#` count, and the start index and length of the
second capture `(.+)`. -/
structure RawMatch where
  start : Nat
  level : Nat
  textStart : Nat
  textLen : Nat
deriving DecidableEq, Repr

/-- The index right after a match (the scanner resumes here). -/
def RawMatch.stop (m : RawMatch) : Nat := m.textStart + m.textLen

/-- Backtracking of the greedy `\s+` when `(.+)` cannot start right
after the whitespace run: give whitespace back one character at a time
until `.` can match, trying widths m0 down to 1. -/
def backFind (s : List Char) (j : Nat) : Nat → Option Nat
  | 0 => none
  | m + 1 => if dotAt s (j + (m + 1)) then some (m + 1) else backFind s j m

/-- Width actually consumed by the greedy `\s+` starting at `j` whose
maximal run has width `w`: the full run when `.` matches right after it,
otherwise the largest smaller width after which `.` matches. -/
def pickWsWidth (s : List Char) (j w : Nat) : Option Nat :=
  if dotAt s (j + w) then some w else backFind s j (w - 1)

/-- Attempt of `/^(#{2,6})\s+(.+)$/m` at index `i`: anchor check, greedy
`#{2,6}`, greedy `\s+` (with backtracking into `(.+)`), greedy `(.+)` up
to the end of the line, where `$` always holds. -/
def matchAt (s : List Char) (i : Nat) : Option RawMatch :=
  if !lineStart s i then none
  else
    let k := runLen (fun c => decide (c.toNat = 35)) s i
    if k < 2 || 6 < k then none
    else
      let j := i + k
      let w := runLen jsSpace s j
      if w == 0 then none
      else
        match pickWsWidth s j w with
        | none => none
        | some m =>
          some ⟨i, k, j + m, runLen (fun c => !lineTerm c) s (j + m)⟩

/-- The scan loop of `matchAll` with the `g` flag: find the leftmost
match at or after `i`, emit it, resume at its end.  `fuel` bounds the
number of index steps; `s.length + 1` is always enough. -/
def scanFrom (s : List Char) : Nat → Nat → List RawMatch
  | _, 0 => []
  | i, fuel + 1 =>
    if s.length < i then []
    else
      match matchAt s i with
      | some m => m :: scanFrom s m.stop fuel
      | none => scanFrom s (i + 1) fuel

/-- All matches of the heading regex over the content, in scan order. -/
def rawMatches (s : List Char) : List RawMatch := scanFrom s 0 (s.length + 1)

/-- The slice of `s` of length `n` starting at index `a`. -/
def sliceL (s : List Char) (a n : Nat) : List Char := (s.drop a).take n

/-- Build the heading record of one match: `level` is the `#` count,
`text` the trimmed second capture, `id` its slug. -/
def mkHeading (s : List Char) (m : RawMatch) : Heading :=
  let text := jsTrim (sliceL s m.textStart m.textLen)
  { id := String.mk (slugifyL text), text := String.mk text, level := m.level }

/-- The source function `extractHeadings : string -> Heading[]`. -/
def extractHeadings (content : String) : List Heading :=
  (rawMatches content.data).map (mkHeading content.data)

/-- The rendered content tree (`ReactNode`) as `extractText` inspects it:
a string, a number (modelled as an integer), an array of nodes, an
object carrying a `props.children` field that may be absent, or any
other value. -/
inductive RNode where
  | str : String → RNode
  | num : Int → RNode
  | arr : List RNode → RNode
  | elem : Option RNode → RNode
  | other : RNode

mutual

/-- The source function `extractText` of `MDXHeading.tsx`: a string is
returned as is, a number stringified, an array mapped and joined with no
separator, an object recursed through `props.children ?? ""` (so an
absent field yields the empty string), anything else the empty string. -/
def extractText : RNode → String
  | .str s => s
  | .num n => toString n
  | .arr l => extractTextList l
  | .elem none => ""
  | .elem (some c) => extractText c
  | .other => ""

/-- `children.map(extractText).join("")`: concatenation in order with no
separator. -/
def extractTextList : List RNode → String
  | [] => ""
  | c :: rest => extractText c ++ extractTextList rest

end

mutual

/-- The leaf texts of a tree in document order, as the specification
describes them. -/
def leafTexts : RNode → List String
  | .str s => [s]
  | .num n => [toString n]
  | .arr l => leafTextsList l
  | .elem none => []
  | .elem (some c) => leafTexts c
  | .other => []

/-- Leaf texts of a forest in document order. -/
def leafTextsList : List RNode → List String
  | [] => []
  | c :: rest => leafTexts c ++ leafTextsList rest

end

mutual

/-- Node count of a tree, used as a recursion-depth bound. -/
def sizeN : RNode → Nat
  | .str _ => 1
  | .num _ => 1
  | .arr l => 2 + sizeL l
  | .elem none => 1
  | .elem (some c) => 1 + sizeN c
  | .other => 1

/-- Node count of a forest. -/
def sizeL : List RNode → Nat
  | [] => 0
  | c :: rest => 1 + sizeN c + sizeL rest

end

mutual

/-- Fuel-bounded version of `extractText`: every recursive call consumes
one unit of fuel, and exhausted fuel yields `none`.  Used to state that
the recursion of the source function bottoms out on finite trees. -/
def extractTextF : Nat → RNode → Option String
  | 0, _ => none
  | fuel + 1, t =>
    match t with
    | .str s => some s
    | .num n => some (toString n)
    | .arr l => extractTextListF fuel l
    | .elem none => some ""
    | .elem (some c) => extractTextF fuel c
    | .other => some ""

/-- Fuel-bounded version of `extractTextList`. -/
def extractTextListF : Nat → List RNode → Option String
  | 0, _ => none
  | _ + 1, [] => some ""
  | fuel + 1, c :: rest =>
    (extractTextF fuel c).bind fun a =>
      (extractTextListF fuel rest).map fun b => a ++ b

end

/-- One entry delivered to the intersection-observer callback of
`TableOfContents`: the observed element's id and whether it currently
intersects the trigger band. -/
structure ObsEntry where
  targetId : String
  isIntersecting : Bool
deriving DecidableEq, Repr

/-- The observer callback of `TableOfContents`: for each entry in
delivered order, if it is intersecting, `activeId` is set to its target
id; the result is the final `activeId`. -/
def observerCallback (entries : List ObsEntry) (activeId : String) : String :=
  entries.foldl (fun acc e => if e.isIntersecting then e.targetId else acc) activeId

/-- The id of the last intersecting entry, if any. -/
def lastIntersectingId (entries : List ObsEntry) : Option String :=
  ((entries.filter (fun e => e.isIntersecting)).getLast?).map (fun e => e.targetId)

/-- The active marking of a rendered list entry:
`const isActive = activeId === heading.id`. -/
def isActiveMark (activeId : String) (h : Heading) : Bool := activeId == h.id

/-- The indentation class chosen for a heading in the rendered list:
`pl-0` for level 2, `pl-3` for level 3, `pl-6` for level 4, `pl-9`
otherwise. -/
def indentClass (level : Nat) : String :=
  if level == 2 then "pl-0"
  else if level == 3 then "pl-3"
  else if level == 4 then "pl-6"
  else "pl-9"

/-- Padding of an indentation class in quarter-rem units (`pl-N` pads by
`N` such units); one indent step of the list is 3 units. -/
def padUnits (cls : String) : Nat :=
  if cls = "pl-0" then 0
  else if cls = "pl-3" then 3
  else if cls = "pl-6" then 6
  else if cls = "pl-9" then 9
  else 0


/-- The line starting at index `i`: all characters up to the next line
terminator. -/
def lineAt (s : List Char) (i : Nat) : List Char :=
  (s.drop i).takeWhile (fun c => !lineTerm c)

/-- The specification's reading of a match's text at a marker line
starting at index `i`: the remainder of that line after its leading `#`
characters, trimmed. -/
def markerLineRemainder (s : List Char) (i : Nat) : List Char :=
  jsTrim ((lineAt s i).drop (runLen (fun c => decide (c.toNat = 35)) s i))

/-- Characters a slug may contain: lowercase ASCII letters, ASCII digits
and the hyphen. -/
def goodChar (c : Char) : Bool :=
  decide ((97 ≤ c.toNat ∧ c.toNat ≤ 122) ∨ (48 ≤ c.toNat ∧ c.toNat ≤ 57) ∨ c.toNat = 45)

/-- Concatenation of a list of strings with no separator. -/
def strConcat (l : List String) : String := l.foldr (fun a b => a ++ b) ""

/-- Adjacent-pair constraint of a slug: no two consecutive hyphens. -/
def noTwoHyphens (l : List Char) : Prop :=
  List.Chain' (fun a b => ¬(a.toNat = 45 ∧ b.toNat = 45)) l

/-- The head, if present, is not a hyphen. -/
def headNotHyphen (l : List Char) : Prop :=
  ∀ c, l.head? = some c → c.toNat ≠ 45

/-- The last character, if present, is not a hyphen. -/
def lastNotHyphen (l : List Char) : Prop :=
  ∀ c, l.getLast? = some c → c.toNat ≠ 45

/-! ## Concrete reference behaviours -/

/-- C3: `extractHeadings` maps the two reference inputs of the
specification to exactly the documented record lists; the `# Skip` line
is excluded, and special characters are stripped from the id but kept in
the text. -/
theorem C3_theorem :
    extractHeadings "## Foo\n### Bar Baz\n# Skip\n#### Deep" =
      [⟨"foo", "Foo", 2⟩, ⟨"bar-baz", "Bar Baz", 3⟩, ⟨"deep", "Deep", 4⟩]
  ∧ extractHeadings "## A & B!\n" = [⟨"a-b", "A & B!", 2⟩] := by
  exact ⟨by decide, by decide⟩

/-- C10: since the `\s+` of the heading pattern can consume a line
break, the input `"##\nFoo"` (a line of two `#` characters with no
trailing text, followed by the line `Foo`) yields the record
`{id:"foo", text:"Foo", level:2}` rather than no record. -/
theorem C10_theorem : extractHeadings "##\nFoo" = [⟨"foo", "Foo", 2⟩] := by decide

/-- C2 counterexample: on `"##\nFoo"` the single returned record has
text `"Foo"`, yet its match starts at index 0 and the remainder of that
marker line after the `#` characters trims to the empty string, so the
record's text is not the remainder of its matched line. -/
theorem C2_counterexample :
    (extractHeadings "##\nFoo").map Heading.text = ["Foo"]
  ∧ (rawMatches "##\nFoo".data).map RawMatch.start = [0]
  ∧ String.mk (markerLineRemainder "##\nFoo".data 0) = ""
  ∧ ("Foo" : String) ≠ "" := by
  exact ⟨by decide, by decide, by decide, by decide⟩

/-- C1 counterexample: on the input `"a_b"` the code collapses the
underscore into a hyphen while the specification's five-step algorithm,
whose step 4 collapses runs of whitespace and/or hyphens only, keeps the
underscore, so the two disagree. -/
theorem C1_counterexample :
    slugify "a_b" = "a-b" ∧ slugifySpec "a_b" = "a_b" ∧ slugify "a_b" ≠ slugifySpec "a_b" := by
  exact ⟨by decide, by decide, by decide⟩

/-- C4 counterexample: the string `"_"` consists of a word character
(underscore is in the class `\w`), yet its slug is the empty string, so
an anchor id produced from it is empty and the claimed round trip fails
for this text. -/
theorem C4_counterexample :
    (∃ c ∈ ("_" : String).data, wordChar c = true) ∧ slugify "_" = "" := by
  exact ⟨⟨'_', by decide, by decide⟩, by decide⟩

/-- C9 counterexample: the rendered list gives levels 5 and 6 the same
padding class `pl-9`, so a level-6 entry does not get one more indent
step than a level-5 entry as the claim requires. -/
theorem C9_counterexample :
    indentClass 5 = "pl-9" ∧ indentClass 6 = "pl-9"
  ∧ ¬ padUnits (indentClass 6) = padUnits (indentClass 5) + 3 := by
  exact ⟨by decide, by decide, by decide⟩

/-- C9 amended: indentation by level in the rendered list, in
quarter-rem units with one indent step being 3 units: level 2 is not
indented, levels 3 and 4 each add one step over the previous level, and
levels 5 and 6 both sit at three steps. -/
theorem C9_theorem :
    padUnits (indentClass 2) = 0 ∧ padUnits (indentClass 3) = 3
  ∧ padUnits (indentClass 4) = 6 ∧ padUnits (indentClass 5) = 9
  ∧ padUnits (indentClass 6) = 9 := by
  exact ⟨by decide, by decide, by decide, by decide, by decide⟩

/-! ## The slugifier implements the amended five-step algorithm -/

/-- The sequential replace of the code and the run-collapsing of the
specification agree, for any run class: outside a run the scanner
behaves like `collapseSpec`, inside a run like `skipRun`. -/
theorem squashRuns_eq_collapse (p : Char → Bool) (l : List Char) :
    squashRuns p l false = collapseSpec p l ∧ squashRuns p l true = skipRun p l := by
  induction l with
  | nil => exact ⟨rfl, rfl⟩
  | cons c rest ih =>
    by_cases h : p c = true
    · constructor
      · simp [squashRuns, collapseSpec, h, ih.2]
      · simp [squashRuns, skipRun, h, ih.2]
    · rw [Bool.not_eq_true] at h
      constructor
      · simp [squashRuns, collapseSpec, h, ih.1]
      · simp [squashRuns, skipRun, h, ih.1]

/-- C1 amended: `slugify` equals the specification's five-step algorithm
with step 4 amended to collapse every run of whitespace, underscores
and/or hyphens (the class `[\s_-]`) into a single hyphen. -/
theorem C1_theorem (s : String) : slugify s = slugifySpecAmended s := by
  have hp : runChar = specRunAmended := rfl
  unfold slugify slugifySpecAmended slugifyL
  rw [hp, (squashRuns_eq_collapse specRunAmended _).1]

/-! ## The text extractor flattens leaves in document order -/

/-- Concatenation distributes over list append. -/
theorem strConcat_append (a b : List String) :
    strConcat (a ++ b) = strConcat a ++ strConcat b := by
  induction a with
  | nil => simp [strConcat]
  | cons s rest ih =>
    simp only [List.cons_append, strConcat, List.foldr_cons] at *
    rw [ih, String.append_assoc]

/-- `extractText` returns the concatenation, in document order and with
no separator, of the leaf texts of the tree. -/
theorem extractText_eq_leaves (t : RNode) : extractText t = strConcat (leafTexts t) :=
  extractText.induct (fun t => extractText t = strConcat (leafTexts t))
    (fun l => extractTextList l = strConcat (leafTextsList l))
    (fun s => by simp [extractText, leafTexts, strConcat])
    (fun n => by simp [extractText, leafTexts, strConcat])
    (fun l ih => by simpa [extractText, leafTexts] using ih)
    (by simp [extractText, leafTexts, strConcat])
    (fun c ih => by simpa [extractText, leafTexts] using ih)
    (by simp [extractText, leafTexts, strConcat])
    (by simp [extractTextList, leafTextsList, strConcat])
    (fun c rest ih1 ih2 => by
      simp only [extractTextList, leafTextsList, strConcat_append, ih1, ih2])
    t

/-- C6: for every finite content tree, `extractText` returns the
concatenation, in document order and with no separator, of its leaf
texts; in particular the displayed three-level tree has leaf texts
`a, b, c` in that order and extracts to `"abc"`. -/
theorem C6_theorem :
    (∀ t, extractText t = strConcat (leafTexts t))
  ∧ leafTexts (.arr [.elem (some (.str "a")), .arr [.str "b", .other], .str "c"]) = ["a", "b", "c"]
  ∧ extractText (.arr [.elem (some (.str "a")), .arr [.str "b", .other], .str "c"]) = "abc" := by
  exact ⟨extractText_eq_leaves, by decide, by decide⟩

/-! ## The recursion of the text extractor bottoms out on finite trees -/

/-- Every tree has at least one node. -/
theorem sizeN_pos (t : RNode) : 1 ≤ sizeN t := by
  cases t with
  | elem o => cases o <;> simp [sizeN]
  | arr l => simp [sizeN]; omega
  | _ => simp [sizeN]

/-- With fuel at least the node count, the fuel-bounded extractor
finishes and agrees with the source function. -/
theorem extractTextF_adequate (fuel : Nat) :
    (∀ t, sizeN t ≤ fuel → extractTextF fuel t = some (extractText t))
  ∧ (∀ l, 1 + sizeL l ≤ fuel → extractTextListF fuel l = some (extractTextList l)) := by
  induction fuel with
  | zero =>
    constructor
    · intro t h
      exact absurd h (by have := sizeN_pos t; omega)
    · intro l h
      exact absurd h (by omega)
  | succ n ih =>
    constructor
    · intro t h
      cases t with
      | str s => rfl
      | num k => rfl
      | other => rfl
      | elem o =>
        cases o with
        | none => rfl
        | some c =>
          have hc : sizeN c ≤ n := by simp [sizeN] at h; omega
          simpa [extractTextF, extractText] using ih.1 c hc
      | arr l =>
        have hl : 1 + sizeL l ≤ n := by simp [sizeN] at h; omega
        simpa [extractTextF, extractText] using ih.2 l hl
    · intro l h
      cases l with
      | nil => rfl
      | cons c rest =>
        have h1 : sizeN c ≤ n := by simp [sizeL] at h; omega
        have h2 : 1 + sizeL rest ≤ n := by
          have := sizeN_pos c; simp [sizeL] at h; omega
        simp [extractTextF, extractTextListF, extractTextList, ih.1 c h1, ih.2 rest h2]

/-- C7: `extractText` terminates on every finite tree: the fuel-bounded
version of its recursion, given any fuel at least the node count of the
tree, bottoms out and returns the extracted string. -/
theorem C7_theorem (t : RNode) (fuel : Nat) (h : sizeN t ≤ fuel) :
    extractTextF fuel t = some (extractText t) :=
  (extractTextF_adequate fuel).1 t h

/-- Witness for C7 at a concrete nested tree. -/
theorem C7_witness :
    sizeN (.arr [.str "a", .elem (some (.str "b"))]) ≤ 10
  ∧ extractTextF 10 (.arr [.str "a", .elem (some (.str "b"))]) =
      some (extractText (.arr [.str "a", .elem (some (.str "b"))])) :=
  ⟨by decide, C7_theorem (.arr [.str "a", .elem (some (.str "b"))]) 10 (by decide)⟩

/-! ## The tracker's observer callback -/

/-- The callback's fold equals: the id of the last intersecting entry in
delivered order, or the unchanged previous state when none intersects. -/
theorem observerCallback_eq (entries : List ObsEntry) (a : String) :
    observerCallback entries a = (lastIntersectingId entries).getD a := by
  induction entries generalizing a with
  | nil => rfl
  | cons e rest ih =>
    by_cases h : e.isIntersecting = true
    · have l1 : observerCallback (e :: rest) a = observerCallback rest e.targetId := by
        simp [observerCallback, h]
      rw [l1, ih]
      simp only [lastIntersectingId, List.filter_cons, h, if_pos]
      cases hf : (rest.filter fun e => e.isIntersecting) with
      | nil => simp [lastIntersectingId, hf]
      | cons x xs =>
        have hg : (x :: xs).getLast? = some ((x :: xs).getLast (by simp)) :=
          List.getLast?_eq_getLast _ _
        simp [lastIntersectingId, hf, List.getLast?_cons_cons, hg]
    · have h' : e.isIntersecting = false := by simpa using h
      have l1 : observerCallback (e :: rest) a = observerCallback rest a := by
        simp [observerCallback, h']
      rw [l1, ih]
      simp [lastIntersectingId, List.filter_cons, h']

/-- C8: the state after the callback is the id of the last intersecting
entry in delivered order (unchanged when none intersects); with three
headings of which only the second's element intersects, `activeId`
becomes the second heading's id, and exactly the entries whose id equals
`activeId` are marked active. -/
theorem C8_theorem (entries : List ObsEntry) (a : String) :
    observerCallback entries a = (lastIntersectingId entries).getD a
  ∧ ∀ h1 h2 h3 : Heading,
      observerCallback [⟨h1.id, false⟩, ⟨h2.id, true⟩, ⟨h3.id, false⟩] a = h2.id
    ∧ ∀ h : Heading,
        isActiveMark (observerCallback [⟨h1.id, false⟩, ⟨h2.id, true⟩, ⟨h3.id, false⟩] a) h
          = (h.id == h2.id) := by
  refine ⟨observerCallback_eq entries a, ?_⟩
  intro h1 h2 h3
  have hcb : observerCallback [⟨h1.id, false⟩, ⟨h2.id, true⟩, ⟨h3.id, false⟩] a = h2.id := by
    simp [observerCallback]
  refine ⟨hcb, ?_⟩
  intro h
  rw [hcb]
  by_cases hh : h2.id = h.id
  · simp [isActiveMark, hh]
  · have e1 : (h2.id == h.id) = false := beq_eq_false_iff_ne.mpr hh
    have e2 : (h.id == h2.id) = false := beq_eq_false_iff_ne.mpr (fun e => hh e.symm)
    simp [isActiveMark, e1, e2]

/-! ## Non-underscore word characters survive slugification -/

/-- The value of the modelled `toLowerCase` on code points. -/
theorem jsLower_toNat (c : Char) :
    (jsLower c).toNat = if 65 ≤ c.toNat ∧ c.toNat ≤ 90 then c.toNat + 32 else c.toNat := by
  unfold jsLower
  by_cases h : 65 ≤ c.toNat ∧ c.toNat ≤ 90
  · simp only [h, and_self, if_pos]
    unfold Char.ofNat
    split
    · rfl
    · rename_i hv
      exact absurd (by left; omega) hv
  · simp [h]

/-- A member failing the predicate survives `dropWhile`. -/
theorem mem_dropWhile_of_mem {p : Char → Bool} {c : Char} {l : List Char}
    (hc : c ∈ l) (hp : p c = false) : c ∈ l.dropWhile p := by
  induction l with
  | nil => cases hc
  | cons a rest ih =>
    by_cases ha : p a = true
    · rcases List.mem_cons.mp hc with rfl | hmem
      · rw [hp] at ha; cases ha
      · simpa [List.dropWhile_cons, ha] using ih hmem
    · rw [Bool.not_eq_true] at ha
      simpa [List.dropWhile_cons, ha] using hc

/-- A member failing the predicate survives `dropTrailingWhile`. -/
theorem mem_dropTrailingWhile_of_mem {p : Char → Bool} {c : Char} {l : List Char}
    (hc : c ∈ l) (hp : p c = false) : c ∈ dropTrailingWhile p l := by
  induction l with
  | nil => cases hc
  | cons a rest ih =>
    rcases List.mem_cons.mp hc with rfl | hmem
    · simp [dropTrailingWhile, hp]
    · have hr : c ∈ dropTrailingWhile p rest := ih hmem
      have hne : (dropTrailingWhile p rest).isEmpty = false := by
        cases hdr : dropTrailingWhile p rest with
        | nil => rw [hdr] at hr; cases hr
        | cons x xs => rfl
      simp only [dropTrailingWhile, hne, Bool.false_and, if_neg, Bool.false_eq_true,
        not_false_iff]
      exact List.mem_cons_of_mem _ hr

/-- A member outside the run class survives `squashRuns`, in either
scanner state. -/
theorem mem_squashRuns_of_mem {p : Char → Bool} {c : Char} {l : List Char}
    (hc : c ∈ l) (hp : p c = false) : ∀ b, c ∈ squashRuns p l b := by
  induction l with
  | nil => cases hc
  | cons a rest ih =>
    intro b
    by_cases ha : p a = true
    · have hmem : c ∈ rest := by
        rcases List.mem_cons.mp hc with rfl | hmem
        · rw [hp] at ha; cases ha
        · exact hmem
      cases b with
      | true => simpa [squashRuns, ha] using ih hmem true
      | false =>
        simp only [squashRuns, ha, if_pos, Bool.false_eq_true, if_neg, not_false_iff]
        exact List.mem_cons_of_mem _ (ih hmem true)
    · rw [Bool.not_eq_true] at ha
      rcases List.mem_cons.mp hc with rfl | hmem
      · cases b <;> simp [squashRuns, ha]
      · cases b <;>
          (simp only [squashRuns, ha, Bool.false_eq_true, if_neg, not_false_iff];
           exact List.mem_cons_of_mem _ (ih hmem false))

/-- C4 amended: whenever the text contains at least one word character
other than underscore (an ASCII letter or digit), its slug is a
non-empty string, so the produced anchor id is a usable `#` fragment
target. -/
theorem C4_theorem (s : String)
    (h : ∃ c ∈ s.data, wordChar c = true ∧ c.toNat ≠ 95) : slugify s ≠ "" := by
  obtain ⟨c, hc, hw, hu⟩ := h
  have hw' : (97 ≤ c.toNat ∧ c.toNat ≤ 122) ∨ (65 ≤ c.toNat ∧ c.toNat ≤ 90) ∨
      (48 ≤ c.toNat ∧ c.toNat ≤ 57) ∨ c.toNat = 95 := by
    simpa [wordChar, decide_eq_true_eq] using hw
  have hn : (97 ≤ (jsLower c).toNat ∧ (jsLower c).toNat ≤ 122) ∨
      (48 ≤ (jsLower c).toNat ∧ (jsLower c).toNat ≤ 57) := by
    by_cases hup : 65 ≤ c.toNat ∧ c.toNat ≤ 90
    · rw [jsLower_toNat, if_pos hup]; omega
    · rw [jsLower_toNat, if_neg hup]; omega
  have m1 : jsLower c ∈ s.data.map jsLower := List.mem_map_of_mem _ hc
  have hsp : jsSpace (jsLower c) = false := by
    simp only [jsSpace, spaceCode, decide_eq_false_iff_not]; omega
  have m2 : jsLower c ∈ jsTrim (s.data.map jsLower) :=
    mem_dropTrailingWhile_of_mem (mem_dropWhile_of_mem m1 hsp) hsp
  have hkeep : keepChar (jsLower c) = true := by
    simp only [keepChar, wordChar, jsSpace, spaceCode, Bool.or_eq_true, decide_eq_true_eq]
    omega
  have m3 : jsLower c ∈ (jsTrim (s.data.map jsLower)).filter keepChar :=
    List.mem_filter.mpr ⟨m2, hkeep⟩
  have hrc : runChar (jsLower c) = false := by
    simp only [runChar, jsSpace, spaceCode, Bool.or_eq_false_iff, decide_eq_false_iff_not]
    omega
  have m4 : jsLower c ∈ squashRuns runChar ((jsTrim (s.data.map jsLower)).filter keepChar) false :=
    mem_squashRuns_of_mem m3 hrc false
  have hhy : decide ((jsLower c).toNat = 45) = false := by
    simp only [decide_eq_false_iff_not]; omega
  have m6 : jsLower c ∈ slugifyL s.data := by
    unfold slugifyL dropEdgeHyphens
    exact mem_dropTrailingWhile_of_mem (mem_dropWhile_of_mem m4 hhy) hhy
  intro heq
  have hdata : slugifyL s.data = [] := congrArg String.data heq
  rw [hdata] at m6
  cases m6

/-- Witness for C4 at a concrete text. -/
theorem C4_witness :
    (∃ c ∈ ("Foo" : String).data, wordChar c = true ∧ c.toNat ≠ 95)
  ∧ slugify "Foo" ≠ "" :=
  ⟨by decide, C4_theorem "Foo" (by decide)⟩

/-! ## Idempotence of the slugifier -/

/-- Every character of a `squashRuns` output is a hyphen or an input
character outside the run class. -/
theorem mem_squashRuns {p : Char → Bool} {l : List Char} :
    ∀ b, ∀ c ∈ squashRuns p l b, c.toNat = 45 ∨ (c ∈ l ∧ p c = false) := by
  induction l with
  | nil => intro b c hc; cases hc
  | cons a rest ih =>
    intro b c hc
    by_cases ha : p a = true
    · have hsub : c ∈ squashRuns p rest true ∨ c.toNat = 45 := by
        cases b with
        | true => exact Or.inl (by simpa [squashRuns, ha] using hc)
        | false =>
          rcases List.mem_cons.mp (by simpa [squashRuns, ha] using hc) with rfl | hm
          · exact Or.inr rfl
          · exact Or.inl hm
      rcases hsub with hm | h45
      · rcases ih true c hm with h45 | ⟨hmem, hp⟩
        · exact Or.inl h45
        · exact Or.inr ⟨List.mem_cons_of_mem _ hmem, hp⟩
      · exact Or.inl h45
    · rw [Bool.not_eq_true] at ha
      have : c = a ∨ c ∈ squashRuns p rest false := by
        cases b <;> exact List.mem_cons.mp (by simpa [squashRuns, ha] using hc)
      rcases this with rfl | hm
      · exact Or.inr ⟨List.mem_cons_self _ _, ha⟩
      · rcases ih false c hm with h45 | ⟨hmem, hp⟩
        · exact Or.inl h45
        · exact Or.inr ⟨List.mem_cons_of_mem _ hmem, hp⟩

/-- `squashRuns` never emits two consecutive hyphens, and in the
inside-a-run state its output never starts with a hyphen, provided the
run class contains the hyphen. -/
theorem squashRuns_chain {p : Char → Bool} (hp : ∀ c, c.toNat = 45 → p c = true)
    (l : List Char) :
    noTwoHyphens (squashRuns p l false) ∧ noTwoHyphens (squashRuns p l true)
  ∧ headNotHyphen (squashRuns p l true) := by
  induction l with
  | nil => exact ⟨List.chain'_nil, List.chain'_nil, fun c hc => by cases hc⟩
  | cons a rest ih =>
    by_cases ha : p a = true
    · refine ⟨?_, by simpa [squashRuns, ha] using ih.2.1,
        by simpa [squashRuns, ha] using ih.2.2⟩
      simp only [squashRuns, ha, if_pos, Bool.false_eq_true, if_neg, not_false_iff]
      exact List.chain'_cons'.mpr
        ⟨fun y hy => fun hcon => ih.2.2 y (by simpa using hy) hcon.2, ih.2.1⟩
    · rw [Bool.not_eq_true] at ha
      have hno : a.toNat ≠ 45 := fun h45 => by rw [hp a h45] at ha; cases ha
      have hchain : noTwoHyphens (a :: squashRuns p rest false) :=
        List.chain'_cons'.mpr ⟨fun y _ => fun hcon => hno hcon.1, ih.1⟩
      exact ⟨by simpa [squashRuns, ha] using hchain,
        by simpa [squashRuns, ha] using hchain,
        by intro c hc; simp only [squashRuns, ha, Bool.false_eq_true, if_neg,
             not_false_iff, List.head?_cons, Option.some.injEq] at hc; exact hc ▸ hno⟩

/-- The head of a `dropWhile` output fails the predicate. -/
theorem head?_dropWhile {p : Char → Bool} {l : List Char} {c : Char}
    (h : (l.dropWhile p).head? = some c) : p c = false := by
  induction l with
  | nil => cases h
  | cons a rest ih =>
    by_cases ha : p a = true
    · exact ih (by simpa [List.dropWhile_cons, ha] using h)
    · rw [Bool.not_eq_true] at ha
      simp only [List.dropWhile_cons, ha, Bool.false_eq_true, if_neg, not_false_iff,
        List.head?_cons, Option.some.injEq] at h
      exact h ▸ ha

/-- The last character of a `dropTrailingWhile` output fails the
predicate. -/
theorem getLast?_dropTrailingWhile {p : Char → Bool} {l : List Char} {c : Char}
    (h : (dropTrailingWhile p l).getLast? = some c) : p c = false := by
  induction l with
  | nil => cases h
  | cons a rest ih =>
    by_cases hcond : ((dropTrailingWhile p rest).isEmpty && p a) = true
    · rw [show dropTrailingWhile p (a :: rest) = [] by simp [dropTrailingWhile, hcond]] at h
      cases h
    · rw [Bool.not_eq_true] at hcond
      rw [show dropTrailingWhile p (a :: rest) = a :: dropTrailingWhile p rest by
        simp only [dropTrailingWhile]; rw [if_neg]; simp [hcond]] at h
      cases hr : dropTrailingWhile p rest with
      | nil =>
        rw [hr] at h
        simp only [List.getLast?_singleton, Option.some.injEq] at h
        subst h
        rw [hr] at hcond
        simpa using hcond
      | cons x xs =>
        rw [hr] at h
        rw [List.getLast?_cons_cons] at h
        exact ih (hr ▸ h)

/-- `dropTrailingWhile` returns a prefix of its input. -/
theorem dropTrailingWhile_prefixOf (p : Char → Bool) (l : List Char) :
    dropTrailingWhile p l <+: l := by
  induction l with
  | nil => exact List.nil_prefix
  | cons a rest ih =>
    by_cases hcond : ((dropTrailingWhile p rest).isEmpty && p a) = true
    · rw [show dropTrailingWhile p (a :: rest) = [] by simp [dropTrailingWhile, hcond]]
      exact List.nil_prefix
    · rw [Bool.not_eq_true] at hcond
      rw [show dropTrailingWhile p (a :: rest) = a :: dropTrailingWhile p rest by
        simp only [dropTrailingWhile]; rw [if_neg]; simp [hcond]]
      exact List.cons_prefix_cons.mpr ⟨rfl, ih⟩

/-- A prefix has the same head as the full list when non-empty. -/
theorem prefixOf_head? {l₁ l₂ : List Char} {c : Char} (h : l₁ <+: l₂)
    (hc : l₁.head? = some c) : l₂.head? = some c := by
  obtain ⟨t, rfl⟩ := h
  cases l₁ with
  | nil => cases hc
  | cons a rest => simpa using hc

/-- A map by a function fixing every member is the identity. -/
theorem map_id_of_mem {f : Char → Char} {l : List Char}
    (h : ∀ c ∈ l, f c = c) : l.map f = l := by
  induction l with
  | nil => rfl
  | cons a rest ih =>
    rw [List.map_cons, h a (List.mem_cons_self _ _), ih (fun c hc => h c (List.mem_cons_of_mem _ hc))]

/-- `dropWhile` is the identity when no member satisfies the predicate. -/
theorem dropWhile_eq_self_of {p : Char → Bool} {l : List Char}
    (h : ∀ c ∈ l, p c = false) : l.dropWhile p = l := by
  cases l with
  | nil => rfl
  | cons a rest => simp [List.dropWhile_cons, h a (List.mem_cons_self _ _)]

/-- `dropTrailingWhile` is the identity when no member satisfies the
predicate. -/
theorem dropTrailingWhile_eq_self_of {p : Char → Bool} {l : List Char}
    (h : ∀ c ∈ l, p c = false) : dropTrailingWhile p l = l := by
  induction l with
  | nil => rfl
  | cons a rest ih =>
    simp only [dropTrailingWhile, ih (fun c hc => h c (List.mem_cons_of_mem _ hc)),
      h a (List.mem_cons_self _ _), Bool.and_false, Bool.false_eq_true, if_neg,
      not_false_iff]

/-- `dropTrailingWhile` is the identity when the last character fails
the predicate. -/
theorem dropTrailingWhile_eq_self_of_getLast {p : Char → Bool} {l : List Char}
    (h : ∀ c, l.getLast? = some c → p c = false) : dropTrailingWhile p l = l := by
  induction l with
  | nil => rfl
  | cons a rest ih =>
    cases rest with
    | nil =>
      have hpa : p a = false := h a rfl
      simp [dropTrailingWhile, hpa]
    | cons b t =>
      have hr : dropTrailingWhile p (b :: t) = b :: t :=
        ih (fun c hc => h c (by rwa [List.getLast?_cons_cons]))
      have hstep : dropTrailingWhile p (a :: b :: t) =
          if (dropTrailingWhile p (b :: t)).isEmpty && p a then []
          else a :: dropTrailingWhile p (b :: t) := rfl
      rw [hstep, hr]
      simp

/-- `squashRuns` fixes a list of slug characters with no two consecutive
hyphens; in the inside-a-run state this additionally needs the head not
to be a hyphen. -/
theorem squashRuns_fix {l : List Char}
    (hgood : ∀ c ∈ l, goodChar c = true) (hchain : noTwoHyphens l) :
    squashRuns runChar l false = l
  ∧ (headNotHyphen l → squashRuns runChar l true = l) := by
  induction l with
  | nil => exact ⟨rfl, fun _ => rfl⟩
  | cons a rest ih =>
    have hga := hgood a (List.mem_cons_self _ _)
    have hrest := fun c hc => hgood c (List.mem_cons_of_mem _ hc)
    have hchain' : noTwoHyphens rest := (List.chain'_cons'.mp hchain).2
    by_cases h45 : a.toNat = 45
    · have hra : runChar a = true := by
        simp only [runChar, Bool.or_eq_true, decide_eq_true_eq]; omega
      have hhead : headNotHyphen rest := by
        intro c hc hcc
        exact (List.chain'_cons'.mp hchain).1 c hc ⟨h45, hcc⟩
      have ha' : a = '-' := Char.ext (UInt32.ext h45)
      constructor
      · simp only [squashRuns, hra, if_pos, Bool.false_eq_true, if_neg, not_false_iff]
        rw [(ih hrest hchain').2 hhead, ha']
      · intro hh
        exact absurd h45 (hh a rfl)
    · have hra : runChar a = false := by
        have : (97 ≤ a.toNat ∧ a.toNat ≤ 122) ∨ (48 ≤ a.toNat ∧ a.toNat ≤ 57) ∨
            a.toNat = 45 := by simpa [goodChar, decide_eq_true_eq] using hga
        simp only [runChar, jsSpace, spaceCode, Bool.or_eq_false_iff,
          decide_eq_false_iff_not]
        omega
      have htail : squashRuns runChar rest false = rest := (ih hrest hchain').1
      constructor
      · simp [squashRuns, hra, htail]
      · intro _
        simp [squashRuns, hra, htail]

/-- Slug characters are fixed by the lowercasing step. -/
theorem jsLower_fix {c : Char} (h : goodChar c = true) : jsLower c = c := by
  have : (97 ≤ c.toNat ∧ c.toNat ≤ 122) ∨ (48 ≤ c.toNat ∧ c.toNat ≤ 57) ∨
      c.toNat = 45 := by simpa [goodChar, decide_eq_true_eq] using h
  unfold jsLower
  rw [if_neg]
  omega

/-- A character that survives the removal step and is outside the run
class is a slug character, once lowercased. -/
theorem goodChar_of_survivor {c₀ : Char}
    (hk : keepChar (jsLower c₀) = true) (hr : runChar (jsLower c₀) = false) :
    goodChar (jsLower c₀) = true := by
  have hnotup : ¬(65 ≤ (jsLower c₀).toNat ∧ (jsLower c₀).toNat ≤ 90) := by
    rw [jsLower_toNat]
    by_cases hup : 65 ≤ c₀.toNat ∧ c₀.toNat ≤ 90
    · rw [if_pos hup]; omega
    · rw [if_neg hup]; omega
  simp only [keepChar, wordChar, jsSpace, spaceCode, Bool.or_eq_true,
    decide_eq_true_eq] at hk
  simp only [runChar, jsSpace, spaceCode, Bool.or_eq_false_iff,
    decide_eq_false_iff_not] at hr
  simp only [goodChar, decide_eq_true_eq]
  omega

/-- The output of `slugifyL` is in slug normal form: only lowercase
letters, digits and hyphens, no two consecutive hyphens, and no hyphen
at either end. -/
theorem slugifyL_props (l : List Char) :
    (∀ c ∈ slugifyL l, goodChar c = true)
  ∧ noTwoHyphens (slugifyL l) ∧ headNotHyphen (slugifyL l) ∧ lastNotHyphen (slugifyL l) := by
  have hchain0 : noTwoHyphens
      (squashRuns runChar ((jsTrim (l.map jsLower)).filter keepChar) false) :=
    (squashRuns_chain (fun c h45 => by
      simp only [runChar, Bool.or_eq_true, decide_eq_true_eq]; omega)
      ((jsTrim (l.map jsLower)).filter keepChar)).1
  refine ⟨?_, ?_, ?_, ?_⟩
  · intro c hc
    unfold slugifyL dropEdgeHyphens at hc
    have hc1 : c ∈ squashRuns runChar ((jsTrim (l.map jsLower)).filter keepChar) false :=
      (List.dropWhile_suffix _).subset ((dropTrailingWhile_prefixOf _ _).subset hc)
    rcases mem_squashRuns false c hc1 with h45 | ⟨hmem, hp⟩
    · simp only [goodChar, decide_eq_true_eq]; omega
    · have hk : keepChar c = true := (List.mem_filter.mp hmem).2
      have hmem2 : c ∈ jsTrim (l.map jsLower) := (List.mem_filter.mp hmem).1
      have hmem3 : c ∈ l.map jsLower := by
        unfold jsTrim at hmem2
        exact (List.dropWhile_suffix jsSpace).subset
          ((dropTrailingWhile_prefixOf _ _).subset hmem2)
      obtain ⟨c₀, _, rfl⟩ := List.mem_map.mp hmem3
      exact goodChar_of_survivor hk hp
  · unfold slugifyL dropEdgeHyphens
    exact List.Chain'.prefix (List.Chain'.suffix hchain0 (List.dropWhile_suffix _)) (dropTrailingWhile_prefixOf _ _)
  · unfold slugifyL dropEdgeHyphens
    intro c hc h45
    have h1 := prefixOf_head? (dropTrailingWhile_prefixOf _ _) hc
    have h2 := head?_dropWhile h1
    simp only [decide_eq_false_iff_not] at h2
    exact h2 h45
  · unfold slugifyL dropEdgeHyphens
    intro c hc h45
    have h2 := getLast?_dropTrailingWhile hc
    simp only [decide_eq_false_iff_not] at h2
    exact h2 h45

/-- `slugifyL` fixes every list already in slug normal form. -/
theorem slugifyL_fix {l : List Char}
    (hgood : ∀ c ∈ l, goodChar c = true) (hchain : noTwoHyphens l)
    (hhead : headNotHyphen l) (hlast : lastNotHyphen l) : slugifyL l = l := by
  have e1 : l.map jsLower = l := map_id_of_mem (fun c hc => jsLower_fix (hgood c hc))
  have hnospace : ∀ c ∈ l, jsSpace c = false := by
    intro c hc
    have hg := hgood c hc
    simp only [goodChar, decide_eq_true_eq] at hg
    simp only [jsSpace, spaceCode, decide_eq_false_iff_not]
    omega
  have e2 : l.dropWhile jsSpace = l := dropWhile_eq_self_of hnospace
  have e3 : dropTrailingWhile jsSpace l = l := dropTrailingWhile_eq_self_of hnospace
  have e4 : l.filter keepChar = l := List.filter_eq_self.mpr (fun c hc => by
    have hg := hgood c hc
    simp only [goodChar, decide_eq_true_eq] at hg
    simp only [keepChar, wordChar, jsSpace, spaceCode, Bool.or_eq_true, decide_eq_true_eq]
    omega)
  have e5 : squashRuns runChar l false = l := (squashRuns_fix hgood hchain).1
  have e6 : l.dropWhile (fun c => decide (c.toNat = 45)) = l := by
    cases hl : l with
    | nil => rfl
    | cons a rest =>
      have ha : decide (a.toNat = 45) = false := by
        simp only [decide_eq_false_iff_not]
        exact hhead a (by rw [hl]; rfl)
      simp [List.dropWhile_cons, ha]
  have e7 : dropTrailingWhile (fun c => decide (c.toNat = 45)) l = l :=
    dropTrailingWhile_eq_self_of_getLast (fun c hc => by
      simp only [decide_eq_false_iff_not]
      exact hlast c hc)
  unfold slugifyL jsTrim dropEdgeHyphens
  rw [e1, e2, e3, e4, e5, e6, e7]

/-- C5: `slugify` is idempotent. -/
theorem C5_theorem (s : String) : slugify (slugify s) = slugify s := by
  show String.mk (slugifyL (slugifyL s.data)) = String.mk (slugifyL s.data)
  have props := slugifyL_props s.data
  rw [slugifyL_fix props.1 props.2.1 props.2.2.1 props.2.2.2]

/-! ## Soundness and ordering of the heading scan -/

/-- Unpacking a successful `.` test: the indexed character exists and is
not a line terminator. -/
theorem dotAt_true {s : List Char} {t : Nat} (h : dotAt s t = true) :
    ∃ c, s.get? t = some c ∧ lineTerm c = false := by
  unfold dotAt at h
  cases hg : s.get? t with
  | none => rw [hg] at h; cases h
  | some c => rw [hg] at h; exact ⟨c, rfl, by simpa using h⟩

/-- Where `.` matches, the maximal non-terminator run is non-empty. -/
theorem runLen_pos_of_dotAt {s : List Char} {t : Nat} (h : dotAt s t = true) :
    1 ≤ runLen (fun c => !lineTerm c) s t := by
  obtain ⟨c, hg, hl⟩ := dotAt_true h
  rw [List.get?_eq_getElem?] at hg
  obtain ⟨hlt, hc⟩ := List.getElem?_eq_some.mp hg
  unfold runLen
  rw [List.drop_eq_getElem_cons hlt, hc, List.takeWhile_cons]
  simp [hl]

/-- A successful backtracking search returns a positive width at which
`.` matches. -/
theorem backFind_some {s : List Char} {j : Nat} :
    ∀ m0 mw, backFind s j m0 = some mw → 1 ≤ mw ∧ dotAt s (j + mw) = true := by
  intro m0
  induction m0 with
  | zero => intro mw h; cases h
  | succ m ih =>
    intro mw h
    unfold backFind at h
    split at h
    · rename_i hdot
      injection h with h
      subst h
      exact ⟨by omega, hdot⟩
    · exact ih mw h

/-- A successful whitespace-width choice is positive and leaves `.` a
character to match. -/
theorem pickWsWidth_some {s : List Char} {j w mw : Nat} (hw : 1 ≤ w)
    (h : pickWsWidth s j w = some mw) : 1 ≤ mw ∧ dotAt s (j + mw) = true := by
  unfold pickWsWidth at h
  split at h
  · rename_i hdot
    injection h with h
    subst h
    exact ⟨hw, hdot⟩
  · exact backFind_some _ _ h

/-- Facts carried by any successful match attempt: it starts at the
attempted index, on a line start, its level is the full leading `#` run
there and lies in `[2,6]`, its text capture is non-empty and starts
after the `#` run and at least one whitespace character. -/
theorem matchAt_some {s : List Char} {i : Nat} {m : RawMatch}
    (h : matchAt s i = some m) :
    m.start = i ∧ lineStart s i = true
  ∧ m.level = runLen (fun c => decide (c.toNat = 35)) s i
  ∧ 2 ≤ m.level ∧ m.level ≤ 6
  ∧ 1 ≤ m.textLen ∧ i + m.level + 1 ≤ m.textStart := by
  unfold matchAt at h
  simp only [] at h
  split at h
  · cases h
  · rename_i hls
    split at h
    · cases h
    · rename_i hk
      split at h
      · cases h
      · rename_i hw
        split at h
        · cases h
        · rename_i mw hpick
          injection h with h
          subst h
          have hls' : lineStart s i = true := by simpa using hls
          have hkb : 2 ≤ runLen (fun c => decide (c.toNat = 35)) s i ∧
              runLen (fun c => decide (c.toNat = 35)) s i ≤ 6 := by
            rcases Nat.lt_or_ge (runLen (fun c => decide (c.toNat = 35)) s i) 2 with hlt | hge
            · exact absurd (by simp [hlt]) hk
            · rcases Nat.lt_or_ge 6 (runLen (fun c => decide (c.toNat = 35)) s i) with h6 | h6
              · exact absurd (by simp [h6]) hk
              · exact ⟨hge, h6⟩
          have hwpos : 1 ≤ runLen jsSpace s (i + runLen (fun c => decide (c.toNat = 35)) s i) := by
            rcases Nat.eq_zero_or_pos (runLen jsSpace s (i + runLen (fun c => decide (c.toNat = 35)) s i)) with h0 | hpos
            · exact absurd (by simp [h0]) hw
            · exact hpos
          have hmw := pickWsWidth_some hwpos hpick
          refine ⟨rfl, hls', rfl, hkb.1, hkb.2, ?_, ?_⟩
          · dsimp only
            exact runLen_pos_of_dotAt hmw.2
          · dsimp only
            omega

/-- Every match stops strictly after it starts. -/
theorem matchAt_start_lt_stop {s : List Char} {i : Nat} {m : RawMatch}
    (h : matchAt s i = some m) : m.start < m.stop := by
  have hf := matchAt_some h
  unfold RawMatch.stop
  omega

/-- Every match emitted by the scan loop from index `i` starts at or
after `i` and is a successful attempt at its own start index. -/
theorem scanFrom_sound {s : List Char} :
    ∀ fuel i m, m ∈ scanFrom s i fuel → i ≤ m.start ∧ matchAt s m.start = some m := by
  intro fuel
  induction fuel with
  | zero => intro i m h; cases h
  | succ n ih =>
    intro i m h
    unfold scanFrom at h
    split at h
    · cases h
    · split at h
      · rename_i m0 hm0
        rcases List.mem_cons.mp h with rfl | htail
        · have hf := matchAt_some hm0
          refine ⟨hf.1 ▸ Nat.le_refl _, ?_⟩
          rw [hf.1]
          exact hm0
        · have hrec := ih m0.stop m htail
          have hlt : i < m0.stop := by
            have := matchAt_start_lt_stop hm0
            have := (matchAt_some hm0).1
            omega
          exact ⟨by omega, hrec.2⟩
      · rename_i hnone
        have hrec := ih (i + 1) m h
        exact ⟨by omega, hrec.2⟩

/-- The matches are emitted in strictly increasing order of start
index. -/
theorem scanFrom_chain {s : List Char} :
    ∀ fuel i, List.Chain' (fun a b => a.start < b.start) (scanFrom s i fuel) := by
  intro fuel
  induction fuel with
  | zero => intro i; exact List.chain'_nil
  | succ n ih =>
    intro i
    unfold scanFrom
    split
    · exact List.chain'_nil
    · split
      · rename_i m0 hm0
        refine List.chain'_cons'.mpr ⟨?_, ih m0.stop⟩
        intro y hy
        have hmem := List.mem_of_mem_head? hy
        have hsound := scanFrom_sound n m0.stop y hmem
        have := matchAt_start_lt_stop hm0
        omega
      · exact ih (i + 1)

/-- C2 amended: every record of `extractHeadings` comes from a match
starting at a line start; its level is the full leading `#` run of that
line, in `[2,6]`; its text is the trimmed second capture of the match
(whose whitespace gap may cross a line break, so the capture can lie on
a later line); its id is the slug of its text; and the matches appear in
document order, strictly increasing in start position. -/
theorem C2_theorem (content : String) :
    extractHeadings content = (rawMatches content.data).map (mkHeading content.data)
  ∧ List.Chain' (fun a b => a.start < b.start) (rawMatches content.data)
  ∧ ∀ m ∈ rawMatches content.data,
      lineStart content.data m.start = true
    ∧ m.level = runLen (fun c => decide (c.toNat = 35)) content.data m.start
    ∧ 2 ≤ m.level ∧ m.level ≤ 6
    ∧ (mkHeading content.data m).text =
        String.mk (jsTrim (sliceL content.data m.textStart m.textLen))
    ∧ (mkHeading content.data m).id = slugify ((mkHeading content.data m).text) := by
  refine ⟨rfl, scanFrom_chain _ _, ?_⟩
  intro m hm
  have hf := matchAt_some (scanFrom_sound _ _ m hm).2
  exact ⟨hf.2.1, hf.2.2.1, hf.2.2.2.1, hf.2.2.2.2.1, rfl, rfl⟩

/-- Witness for C2 on the first reference input, at its first match. -/
theorem C2_witness :
    (⟨0, 2, 3, 3⟩ : RawMatch) ∈ rawMatches ("## Foo" : String).data
  ∧ (lineStart ("## Foo" : String).data 0 = true
    ∧ (2 : Nat) = runLen (fun c => decide (c.toNat = 35)) ("## Foo" : String).data 0
    ∧ 2 ≤ 2 ∧ 2 ≤ 6
    ∧ (mkHeading ("## Foo" : String).data ⟨0, 2, 3, 3⟩).text =
        String.mk (jsTrim (sliceL ("## Foo" : String).data 3 3))
    ∧ (mkHeading ("## Foo" : String).data ⟨0, 2, 3, 3⟩).id =
        slugify ((mkHeading ("## Foo" : String).data ⟨0, 2, 3, 3⟩).text)) := by
  have h := C2_theorem "## Foo"
  exact ⟨by decide, h.2.2 ⟨0, 2, 3, 3⟩ (by decide)⟩
